import Mathlib

/-!
Verification of the av-sync player and ffmpeg export pipeline
(src/app/player.tsx, src/app/lib/ffmpeg-export.ts).

Shallow embedding conventions: JavaScript numbers are modelled as ℚ, with
the non-finite values (NaN, ±Infinity) added explicitly where the source
tests Number.isFinite (type JSNum). The asynchronous ffmpeg.wasm engine is
modelled as an oracle EngineCall → Option ℕ (some = exec succeeded and
produced the given output blob, none = exec threw), and an export run
records the ordered engine interactions it performs. Filter strings such
as atempo=0.5 or adelay=200|200 are modelled structurally, keeping only
the numeric payloads the strings carry.
-/

set_option maxRecDepth 8000

namespace AvSync

/-! ## TempoDecomposer: buildAtempoFilters (ffmpeg-export.ts lines 71-87) -/

/-- Numeric value of the JavaScript r.toFixed(3) rendering used in
ffmpeg-export.ts line 84 (atempo filter value, 3 decimal places; JS
toFixed rounds ties away from zero, which for the positive rates at play
is floor (x*1000 + 1/2) / 1000). -/
def round3 (x : ℚ) : ℚ := (⌊x * 1000 + 1 / 2⌋ : ℚ) / 1000

/-- The first while loop of buildAtempoFilters (lines 75-78): while
r < 0.5, push an atempo=0.5 operation and divide r by 0.5. The loop is
modelled with explicit fuel; for every rate the program feeds in
(clampRate output restricted to the UI range [0.1, 2.0]) the fuel is
never exhausted, as the accompanying lemmas show. -/
def halveLoop : ℕ → ℚ → List ℚ × ℚ
  | 0, r => ([], r)
  | n + 1, r =>
    if r < 1 / 2 then
      match halveLoop n (r / (1 / 2)) with
      | (l, r2) => (1 / 2 :: l, r2)
    else ([], r)

/-- The second while loop of buildAtempoFilters (lines 79-82): while
r > 2.0, push an atempo=2.0 operation and divide r by 2.0; fuel-based
like halveLoop. -/
def doubleLoop : ℕ → ℚ → List ℚ × ℚ
  | 0, r => ([], r)
  | n + 1, r =>
    if r > 2 then
      match doubleLoop n (r / 2) with
      | (l, r2) => (2 :: l, r2)
    else ([], r)

/-- buildAtempoFilters (lines 71-87): decompose a rate into a chain of
atempo multipliers. The source emits filter strings; the list holds the
numeric multiplier of each emitted atempo operation, in order. -/
def buildAtempoFilters (rate : ℚ) : List ℚ :=
  let p1 := halveLoop 64 rate
  let p2 := doubleLoop 64 p1.2
  let filters := p1.1 ++ p2.1
  if 1 / 10000 < |p2.2 - 1| then filters ++ [round3 p2.2] else filters

/-- An atempo multiplier at a range boundary (an emitted 0.5 halving or
2.0 doubling step uses exactly these values). -/
def isBoundaryOp (m : ℚ) : Bool := decide (m = 1 / 2 ∨ m = 2)

/-! ## SyncController: the per-tick drift correction (player.tsx lines 537-553) -/

/-- clamp from player.tsx line 716: Math.max(lo, Math.min(hi, x)). -/
def clamp (x lo hi : ℚ) : ℚ := max lo (min hi x)

/-- clamp(x, 0, a.duration || Infinity) as used at line 547: when the
audio duration is unavailable (falsy), the upper bound is Infinity,
modelled by none (no upper clamp). -/
def clampInf (x lo : ℚ) (hi : Option ℚ) : ℚ :=
  match hi with
  | some h => clamp x lo h
  | none => max lo x

/-- The externally visible effect of one tick of the sync loop on the
audio element: either a corrective seek (safeSetCurrentTime) or a write
of the audio playback rate. -/
inductive TickAction where
  | seek (target : ℚ)
  | adjustRate (rate : ℚ)
  deriving DecidableEq

/-- One tick of the sync loop (player.tsx lines 537-553): with
expectedAudio = videoTime - offsetSec and diff = audioTime -
expectedAudio, a drift beyond 0.15 triggers a jump seek to
clamp(expectedAudio, 0, duration); otherwise the audio playbackRate is
set to clamp(1.0 - diff * 0.25, 0.95, 1.05) * playbackRate. -/
def tick (videoTime audioTime offsetSec playbackRate : ℚ)
    (audioDuration : Option ℚ) : TickAction :=
  let expectedAudio := videoTime - offsetSec
  let diff := audioTime - expectedAudio
  if |diff| > 15 / 100 then
    .seek (clampInf expectedAudio 0 audioDuration)
  else
    .adjustRate (clamp (1 - diff * (25 / 100)) (95 / 100) (105 / 100) * playbackRate)

/-! ## The export pipeline (ffmpeg-export.ts lines 96-252) -/

/-- A JavaScript number: a finite rational or one of the non-finite
values distinguished by Number.isFinite. -/
inductive JSNum where
  | nan
  | posInf
  | negInf
  | fin (val : ℚ)
  deriving DecidableEq

/-- Number.isFinite. -/
def isFiniteJS : JSNum → Bool
  | .fin _ => true
  | _ => false

/-- The rational payload of a finite JS number (only consulted under an
isFiniteJS guard, mirroring the source's TS casts). -/
def jsVal : JSNum → ℚ
  | .fin q => q
  | _ => 0

/-- Number.isFinite on an optional field (undefined/null is not finite). -/
def isFiniteOpt : Option JSNum → Bool
  | some (.fin _) => true
  | _ => false

/-- Payload of an optional JS number (only consulted under guards). -/
def optVal : Option JSNum → ℚ
  | some (.fin q) => q
  | _ => 0

/-- Math.round: round half toward +infinity. -/
def jsRound (x : ℚ) : ℤ := ⌊x + 1 / 2⌋

/-- clampRate (lines 96-99): a non-finite or non-positive rate becomes
1.0, any other rate passes through. -/
def clampRate (rate : JSNum) : ℚ :=
  match rate with
  | .fin q => if q ≤ 0 then 1 else q
  | _ => 1

/-- offset normalisation (line 111): Number.isFinite(offsetSec) ?
offsetSec : 0. -/
def normOffset (offsetSec : JSNum) : ℚ :=
  if isFiniteJS offsetSec then jsVal offsetSec else 0

/-- hasTrim (lines 112-115): both trim endpoints finite and start < end. -/
def hasTrimOf (ts te : Option JSNum) : Bool :=
  isFiniteOpt ts && isFiniteOpt te && decide (optVal ts < optVal te)

/-- trimStart (line 116): the requested start when the trim is valid,
else 0. -/
def trimStartOf (ts te : Option JSNum) : ℚ :=
  if hasTrimOf ts te then optVal ts else 0

/-- trimEnd (line 117). -/
def trimEndOf (ts te : Option JSNum) : ℚ :=
  if hasTrimOf ts te then optVal te else 0

/-- The source File metadata entering the cache key (name, size,
lastModified). -/
structure FileMeta where
  name : String
  size : ℕ
  lastModified : ℕ
  deriving DecidableEq

/-- The export cache key (line 126). The source joins these seven fields
with colon separators into one string; the key is modelled as the tuple
of fields. -/
structure CacheKey where
  name : String
  size : ℕ
  lastModified : ℕ
  rate : ℚ
  offset : ℚ
  trimStart : ℚ
  trimEnd : ℚ
  deriving DecidableEq

/-- The cache key computed for a request (line 126), built from the
already-normalised rate, offset and trim bounds. -/
def exportKeyOf (file : FileMeta) (pr off : JSNum) (ts te : Option JSNum) : CacheKey :=
  ⟨file.name, file.size, file.lastModified, clampRate pr, normOffset off,
    trimStartOf ts te, trimEndOf ts te⟩

/-- Codec selection in an ffmpeg.exec invocation. -/
inductive Codec where
  | copy
  | aac
  | libx264
  deriving DecidableEq

/-- Audio filter operations appearing in the -filter_complex audio chain. -/
inductive AFilter where
  | adelay (ms : ℤ)
  | atrimStart (start : ℚ)
  | atrimRange (start stop : ℚ)
  | asetpts
  | atempo (mult : ℚ)
  | anull
  deriving DecidableEq

/-- Video filter operations appearing in the -filter_complex video chain. -/
inductive VFilter where
  | trimRange (start stop : ℚ)
  | setptsReset
  | setptsRate (rate : ℚ)
  | scale720p
  | fps30
  deriving DecidableEq

/-- One ffmpeg.exec invocation: codecs and filter chains. videoFilters =
none means the video stream is mapped directly (0:v:0) with no filter. -/
structure EngineCall where
  videoCodec : Codec
  audioCodec : Codec
  videoFilters : Option (List VFilter)
  audioFilters : List AFilter
  deriving DecidableEq

/-- Audio offset filters of the offset-only fast path (lines 149-157):
adelay for a positive offset, else atrim from |offset| plus a timestamp
reset. -/
def copyPathAudioFilters (offset : ℚ) : List AFilter :=
  if 0 < offset then [.adelay (jsRound (offset * 1000))]
  else [.atrimStart |offset|, .asetpts]

/-- The exec call of the offset-only fast path (lines 160-171): video
stream copied (-c:v copy), audio filtered and re-encoded to aac. -/
def audioOnlyCall (offset : ℚ) : EngineCall :=
  { videoCodec := .copy
    audioCodec := .aac
    videoFilters := none
    audioFilters := copyPathAudioFilters offset }

/-- Audio offset filters of the full re-encode path (lines 203-209):
adelay when offset > 0, atrim + reset when offset < 0, nothing at 0. -/
def fullPathOffsetFilters (offset : ℚ) : List AFilter :=
  if 0 < offset then [.adelay (jsRound (offset * 1000))]
  else if offset < 0 then [.atrimStart |offset|, .asetpts]
  else []

/-- Video filter chain of the full re-encode (lines 191-196): optional
trim + reset, then setpts=PTS/rate, the 720p downscale, and fps=30. -/
def fullVideoFilters (hasTrim : Bool) (trimStart trimEnd rate : ℚ) : List VFilter :=
  (if hasTrim then [.trimRange trimStart trimEnd, .setptsReset] else []) ++
    [.setptsRate rate, .scale720p, .fps30]

/-- Audio filter chain of the full re-encode (lines 199-211): optional
trim + reset, offset filters, then the atempo chain; anull when empty. -/
def fullAudioFilters (hasTrim : Bool) (trimStart trimEnd offset rate : ℚ) : List AFilter :=
  let fs := (if hasTrim then [.atrimRange trimStart trimEnd, .asetpts] else []) ++
    fullPathOffsetFilters offset ++ (buildAtempoFilters rate).map .atempo
  if fs.isEmpty then [.anull] else fs

/-- The exec call of the full re-encode (lines 216-233): libx264 video,
aac audio, both streams filtered. -/
def fullCall (rate offset : ℚ) (hasTrim : Bool) (trimStart trimEnd : ℚ) : EngineCall :=
  { videoCodec := .libx264
    audioCodec := .aac
    videoFilters := some (fullVideoFilters hasTrim trimStart trimEnd rate)
    audioFilters := fullAudioFilters hasTrim trimStart trimEnd offset rate }

/-- The full re-encode call for a request, on its normalised parameters. -/
def fullCallOf (pr off : JSNum) (ts te : Option JSNum) : EngineCall :=
  fullCall (clampRate pr) (normOffset off) (hasTrimOf ts te)
    (trimStartOf ts te) (trimEndOf ts te)

/-- The pass-through test (line 120): |rate - 1| < 1e-6, |offset| < 1e-6
and no trim; the source file itself is returned. -/
def trivialReq (pr off : JSNum) (ts te : Option JSNum) : Prop :=
  |clampRate pr - 1| < 1 / 1000000 ∧ |normOffset off| < 1 / 1000000 ∧
    hasTrimOf ts te = false

instance (pr off : JSNum) (ts te : Option JSNum) : Decidable (trivialReq pr off ts te) := by
  unfold trivialReq
  infer_instance

/-- The offset-only fast-path test (line 148): rate is 1 within 1e-6, the
offset is larger than 1e-6 in magnitude, and no trim. -/
def offsetOnlyReq (pr off : JSNum) (ts te : Option JSNum) : Prop :=
  |clampRate pr - 1| < 1 / 1000000 ∧ 1 / 1000000 < |normOffset off| ∧
    hasTrimOf ts te = false

instance (pr off : JSNum) (ts te : Option JSNum) : Decidable (offsetOnlyReq pr off ts te) := by
  unfold offsetOnlyReq
  infer_instance

/-- The error taxonomy a run can surface (the source throws Error with a
user-facing message; the message identity is abstracted). -/
inductive ErrKind where
  | inputRead
  | execFailed
  deriving DecidableEq

/-- Outcome of one exportVideoWithOffset call: the source file returned
verbatim, a cache hit, a freshly produced blob, or a thrown error. -/
inductive ExportOutcome where
  | passthrough
  | cached (blob : ℕ)
  | ok (blob : ℕ)
  | failed (err : ErrKind)
  deriving DecidableEq

/-- The engine interactions a run performs, in order: getFFmpeg (load of
the shared instance), writeFile of the input, an exec attempt, readFile
of the output. -/
inductive EngineOp where
  | getEngine
  | writeInput
  | exec (call : EngineCall)
  | readOutput
  deriving DecidableEq

/-- Result of one exportVideoWithOffset call: outcome, the cache after
the call, and the ordered engine interactions performed. -/
structure RunResult where
  out : ExportOutcome
  cache : List (CacheKey × ℕ)
  ops : List EngineOp
  deriving DecidableEq

/-- Map.get on the session export cache (line 127), modelled on an
association list whose most recent insertion is at the head. -/
def cacheLookup : List (CacheKey × ℕ) → CacheKey → Option ℕ
  | [], _ => none
  | (k, v) :: rest, key => if k = key then some v else cacheLookup rest key

/-- The exec attempts contained in an interaction trace, in order. -/
def execCalls (ops : List EngineOp) : List EngineCall :=
  ops.filterMap fun op =>
    match op with
    | .exec c => some c
    | _ => none

/-- exportVideoWithOffset (lines 107-252) as a function of the engine
oracle eng (what each exec attempt returns), whether staging the input
bytes succeeds (writeOk, lines 139-143), the session cache, the source
file metadata and the request parameters. Follows the source's control
flow: pass-through check, cache lookup, engine acquisition and input
write, the offset-only fast path with its fallback, and the full
re-encode; the cache is written after each successful exec. -/
def exportVideoWithOffset (eng : EngineCall → Option ℕ) (writeOk : Bool)
    (cache : List (CacheKey × ℕ)) (file : FileMeta) (pr off : JSNum)
    (ts te : Option JSNum) : RunResult :=
  if trivialReq pr off ts te then ⟨.passthrough, cache, []⟩
  else
    match cacheLookup cache (exportKeyOf file pr off ts te) with
    | some b => ⟨.cached b, cache, []⟩
    | none =>
      if writeOk then
        if offsetOnlyReq pr off ts te then
          match eng (audioOnlyCall (normOffset off)) with
          | some b =>
            ⟨.ok b, (exportKeyOf file pr off ts te, b) :: cache,
              [.getEngine, .writeInput, .exec (audioOnlyCall (normOffset off)), .readOutput]⟩
          | none =>
            match eng (fullCallOf pr off ts te) with
            | some b =>
              ⟨.ok b, (exportKeyOf file pr off ts te, b) :: cache,
                [.getEngine, .writeInput, .exec (audioOnlyCall (normOffset off)),
                  .exec (fullCallOf pr off ts te), .readOutput]⟩
            | none =>
              ⟨.failed .execFailed, cache,
                [.getEngine, .writeInput, .exec (audioOnlyCall (normOffset off)),
                  .exec (fullCallOf pr off ts te)]⟩
        else
          match eng (fullCallOf pr off ts te) with
          | some b =>
            ⟨.ok b, (exportKeyOf file pr off ts te, b) :: cache,
              [.getEngine, .writeInput, .exec (fullCallOf pr off ts te), .readOutput]⟩
          | none =>
            ⟨.failed .execFailed, cache,
              [.getEngine, .writeInput, .exec (fullCallOf pr off ts te)]⟩
      else ⟨.failed .inputRead, cache, [.getEngine, .writeInput]⟩

/-- A rate is degenerate when clampRate coerces it to 1.0: non-finite or
non-positive (lines 96-99). -/
def badRate (pr : JSNum) : Prop := isFiniteJS pr = false ∨ jsVal pr ≤ 0

instance (pr : JSNum) : Decidable (badRate pr) := by
  unfold badRate
  infer_instance

/-! ## Progress reporting (ffmpeg-export.ts line 56, player.tsx line 468) -/

/-- The value stored into the exportProgress state for one raw engine
progress event: ffmpeg.on progress forwards payload.progress to
onProgress (ffmpeg-export.ts line 56), and onExport passes
(p) => setExportProgress(p) (player.tsx line 468) - the raw value,
unmodified. -/
def onEngineProgress (p : ℚ) : ℚ := p

/-- The successive exportProgress values presented for a stream of raw
engine progress events. -/
def exportProgressTrace (events : List ℚ) : List ℚ :=
  events.map onEngineProgress

/-! ## Concrete fixtures used by witnesses and counterexamples -/

/-- A concrete source file. -/
def file0 : FileMeta := ⟨"a.mp4", 10, 20⟩

/-- An engine oracle whose every exec succeeds with blob 7. -/
def engOk : EngineCall → Option ℕ := fun _ => some 7

/-- An engine oracle whose every exec fails. -/
def engFail : EngineCall → Option ℕ := fun _ => none

/-! ## Lemmas about round3 and the tempo loops -/

theorem round3_close (x : ℚ) : |round3 x - x| ≤ 1 / 2000 := by
  have h1 : (⌊x * 1000 + 1 / 2⌋ : ℚ) ≤ x * 1000 + 1 / 2 := Int.floor_le _
  have h2 : x * 1000 + 1 / 2 < (⌊x * 1000 + 1 / 2⌋ : ℚ) + 1 :=
    Int.lt_floor_add_one _
  rw [round3, abs_le]
  constructor <;> linarith

theorem round3_mono {x y : ℚ} (h : x ≤ y) : round3 x ≤ round3 y := by
  have h1 : ⌊x * 1000 + 1 / 2⌋ ≤ ⌊y * 1000 + 1 / 2⌋ :=
    Int.floor_le_floor (by linarith)
  have h2 : ((⌊x * 1000 + 1 / 2⌋ : ℤ) : ℚ) ≤ ((⌊y * 1000 + 1 / 2⌋ : ℤ) : ℚ) :=
    Int.cast_le.mpr h1
  rw [round3, round3]
  linarith

theorem round3_half : round3 (1 / 2) = 1 / 2 := by
  rw [round3]
  norm_num

theorem round3_one : round3 1 = 1 := by
  rw [round3]
  norm_num

theorem round3_two : round3 2 = 2 := by
  rw [round3]
  norm_num

theorem round3_fourfifths : round3 (4 / 5) = 4 / 5 := by
  rw [round3]
  norm_num

theorem halveLoop_of_ge (fuel : ℕ) (r : ℚ) (h : 1 / 2 ≤ r) :
    halveLoop fuel r = ([], r) := by
  cases fuel with
  | zero => rfl
  | succ n => rw [halveLoop, if_neg (not_lt.mpr h)]

theorem doubleLoop_of_le (fuel : ℕ) (r : ℚ) (h : r ≤ 2) :
    doubleLoop fuel r = ([], r) := by
  cases fuel with
  | zero => rfl
  | succ n => rw [doubleLoop, if_neg (not_lt.mpr h)]

theorem halveLoop_spec (fuel : ℕ) :
    ∀ r : ℚ, 0 < r → 1 / 2 ≤ 2 ^ fuel * r →
      (∀ x ∈ (halveLoop fuel r).1, x = 1 / 2) ∧
      (halveLoop fuel r).1.prod * (halveLoop fuel r).2 = r ∧
      1 / 2 ≤ (halveLoop fuel r).2 ∧
      ((halveLoop fuel r).1 = [] ∨ (halveLoop fuel r).2 < 1) ∧
      ((halveLoop fuel r).1 = [] → (halveLoop fuel r).2 = r) := by
  induction fuel with
  | zero =>
    intro r _ h
    rw [pow_zero, one_mul] at h
    refine ⟨by simp [halveLoop], by simp [halveLoop], h, Or.inl rfl, fun _ => rfl⟩
  | succ n ih =>
    intro r hr h
    by_cases hlt : r < 1 / 2
    · have hr2 : 0 < r / (1 / 2) := by positivity
      have h2 : 1 / 2 ≤ 2 ^ n * (r / (1 / 2)) := by
        have he : (2 : ℚ) ^ n * (r / (1 / 2)) = 2 ^ (n + 1) * r := by ring
        rw [he]
        exact h
      obtain ⟨e1, e2, e3, e4, e5⟩ := ih (r / (1 / 2)) hr2 h2
      have hstep : halveLoop (n + 1) r =
          (1 / 2 :: (halveLoop n (r / (1 / 2))).1, (halveLoop n (r / (1 / 2))).2) := by
        rw [halveLoop, if_pos hlt]
      rw [hstep]
      refine ⟨?_, ?_, e3, ?_, ?_⟩
      · intro x hx
        rcases List.mem_cons.mp hx with hx | hx
        · exact hx
        · exact e1 x hx
      · rw [List.prod_cons, mul_assoc, e2]
        ring
      · right
        rcases e4 with hnil | hlt1
        · rw [e5 hnil]
          calc r / (1 / 2) = 2 * r := by ring
            _ < 1 := by linarith
        · exact hlt1
      · intro hh
        exact absurd hh (by simp)
    · have hge : 1 / 2 ≤ r := not_lt.mp hlt
      have hstep : halveLoop (n + 1) r = ([], r) := by
        rw [halveLoop, if_neg hlt]
      rw [hstep]
      exact ⟨by simp, by simp, hge, Or.inl rfl, fun _ => rfl⟩

theorem prod_of_halves {l : List ℚ} (hl : ∀ x ∈ l, x = (1 / 2 : ℚ)) :
    0 < l.prod ∧ l.prod ≤ 1 := by
  induction l with
  | nil => simp
  | cons a t ih =>
    have ha : a = 1 / 2 := hl a (by simp)
    have ht : ∀ x ∈ t, x = (1 / 2 : ℚ) := fun x hx => hl x (by simp [hx])
    obtain ⟨h1, h2⟩ := ih ht
    rw [List.prod_cons, ha]
    constructor
    · positivity
    · nlinarith

theorem prod_of_halves_len {l : List ℚ} (hl : ∀ x ∈ l, x = (1 / 2 : ℚ)) :
    l.prod = (1 / 2 : ℚ) ^ l.length := by
  induction l with
  | nil => simp
  | cons a t ih =>
    have ha : a = 1 / 2 := hl a (by simp)
    have ht : ∀ x ∈ t, x = (1 / 2 : ℚ) := fun x hx => hl x (by simp [hx])
    rw [List.prod_cons, ha, ih ht, List.length_cons, pow_succ]
    ring

theorem buildAtempoFilters_eq_of (rate : ℚ) (h : (halveLoop 64 rate).2 ≤ 2) :
    buildAtempoFilters rate =
      if 1 / 10000 < |(halveLoop 64 rate).2 - 1|
      then (halveLoop 64 rate).1 ++ [round3 (halveLoop 64 rate).2]
      else (halveLoop 64 rate).1 := by
  have hd := doubleLoop_of_le 64 _ h
  rw [buildAtempoFilters]
  simp only [hd, List.append_nil]

/-! ## Claim C1 -/

/-- C1: for every rate in [0.1, 2.0], buildAtempoFilters returns
multipliers each within [0.5, 2.0] whose product equals the rate to
within 1e-3, and a rate within 1e-4 of 1.0 yields the empty list. -/
theorem buildAtempoFilters_correct (rate : ℚ) (h1 : 1 / 10 ≤ rate) (h2 : rate ≤ 2) :
    (∀ m ∈ buildAtempoFilters rate, 1 / 2 ≤ m ∧ m ≤ 2) ∧
    |(buildAtempoFilters rate).prod - rate| ≤ 1 / 1000 ∧
    (|rate - 1| ≤ 1 / 10000 → buildAtempoFilters rate = []) := by
  have hr0 : 0 < rate := by linarith
  have hfuel : 1 / 2 ≤ 2 ^ 64 * rate := by
    have hp : (0 : ℚ) < 2 ^ 64 := by positivity
    nlinarith
  obtain ⟨e1, e2, e3, e4, e5⟩ := halveLoop_spec 64 rate hr0 hfuel
  have hr2 : (halveLoop 64 rate).2 ≤ 2 := by
    rcases e4 with hnil | hlt1
    · rw [e5 hnil]
      exact h2
    · linarith
  have hEq := buildAtempoFilters_eq_of rate hr2
  obtain ⟨hp_pos, hp_le⟩ := prod_of_halves e1
  refine ⟨?_, ?_, ?_⟩
  · intro m hm
    rw [hEq] at hm
    by_cases hc : 1 / 10000 < |(halveLoop 64 rate).2 - 1|
    · rw [if_pos hc] at hm
      rcases List.mem_append.mp hm with hm | hm
      · have hm2 := e1 m hm
        rw [hm2]
        norm_num
      · have hm2 : m = round3 (halveLoop 64 rate).2 := by simpa using hm
        rw [hm2]
        constructor
        · have hlow := round3_mono e3
          rw [round3_half] at hlow
          exact hlow
        · have hhigh := round3_mono hr2
          rw [round3_two] at hhigh
          exact hhigh
    · rw [if_neg hc] at hm
      have hm2 := e1 m hm
      rw [hm2]
      norm_num
  · rw [hEq]
    by_cases hc : 1 / 10000 < |(halveLoop 64 rate).2 - 1|
    · rw [if_pos hc, List.prod_append, List.prod_singleton]
      have key : (halveLoop 64 rate).1.prod * round3 (halveLoop 64 rate).2 - rate =
          (halveLoop 64 rate).1.prod *
            (round3 (halveLoop 64 rate).2 - (halveLoop 64 rate).2) := by
        rw [mul_sub, e2]
      rw [key, abs_mul, abs_of_pos hp_pos]
      have h3 := round3_close (halveLoop 64 rate).2
      calc (halveLoop 64 rate).1.prod *
            |round3 (halveLoop 64 rate).2 - (halveLoop 64 rate).2|
          ≤ 1 * (1 / 2000) := mul_le_mul hp_le h3 (abs_nonneg _) (by norm_num)
        _ ≤ 1 / 1000 := by norm_num
    · rw [if_neg hc]
      have h4 : |(halveLoop 64 rate).2 - 1| ≤ 1 / 10000 := not_lt.mp hc
      have key : (halveLoop 64 rate).1.prod - rate =
          (halveLoop 64 rate).1.prod * (1 - (halveLoop 64 rate).2) := by
        rw [mul_sub, mul_one, e2]
      rw [key, abs_mul, abs_of_pos hp_pos]
      have h5 : |1 - (halveLoop 64 rate).2| ≤ 1 / 10000 := by
        rw [abs_sub_comm]
        exact h4
      calc (halveLoop 64 rate).1.prod * |1 - (halveLoop 64 rate).2|
          ≤ 1 * (1 / 10000) := mul_le_mul hp_le h5 (abs_nonneg _) (by norm_num)
        _ ≤ 1 / 1000 := by norm_num
  · intro hnear
    have hge : (1 : ℚ) / 2 ≤ rate := by
      have hb := abs_le.mp hnear
      linarith [hb.1]
    have h5 : halveLoop 64 rate = ([], rate) := halveLoop_of_ge 64 rate hge
    have hcond : ¬ (1 / 10000 < |(halveLoop 64 rate).2 - 1|) := by
      rw [h5]
      simpa using not_lt.mpr hnear
    rw [hEq, if_neg hcond, h5]

/-- C1 witness: the theorem instantiated at rate 3/4. -/
theorem buildAtempoFilters_correct_witness :
    ((1 : ℚ) / 10 ≤ 3 / 4 ∧ (3 : ℚ) / 4 ≤ 2) ∧
    (∀ m ∈ buildAtempoFilters (3 / 4), 1 / 2 ≤ m ∧ m ≤ 2) ∧
    |(buildAtempoFilters (3 / 4)).prod - 3 / 4| ≤ 1 / 1000 ∧
    (|(3 : ℚ) / 4 - 1| ≤ 1 / 10000 → buildAtempoFilters (3 / 4) = []) :=
  ⟨⟨by norm_num, by norm_num⟩,
    buildAtempoFilters_correct (3 / 4) (by norm_num) (by norm_num)⟩

/-! ## Claim C9 -/

/-- C9 counterexample: at rate 0.1 the decomposition emits three boundary
0.5 operations (0.1 = 0.5^3 times 0.8), not at most two. -/
theorem tempo_boundary_counterexample :
    ¬ (∀ rate : ℚ, 1 / 10 ≤ rate → rate ≤ 2 →
        ((buildAtempoFilters rate).filter isBoundaryOp).length ≤ 2) := by
  intro h
  have h1 := h (1 / 10) (by norm_num) (by norm_num)
  have h2 : buildAtempoFilters (1 / 10) = [1 / 2, 1 / 2, 1 / 2, 4 / 5] := by
    norm_num [buildAtempoFilters, halveLoop, doubleLoop, round3,
      abs_eq_max_neg, max_def]
  rw [h2] at h1
  norm_num [List.filter, isBoundaryOp] at h1

/-- C9 amended: for every rate in [0.1, 2.0], at most three boundary
(0.5 or 2.0) operations appear in the decomposition (rate 0.1 requires
three halving steps). -/
theorem tempo_boundary_count (rate : ℚ) (h1 : 1 / 10 ≤ rate) (h2 : rate ≤ 2) :
    ((buildAtempoFilters rate).filter isBoundaryOp).length ≤ 3 := by
  have hr0 : 0 < rate := by linarith
  have hfuel : 1 / 2 ≤ 2 ^ 64 * rate := by
    have hp : (0 : ℚ) < 2 ^ 64 := by positivity
    nlinarith
  obtain ⟨e1, e2, e3, e4, e5⟩ := halveLoop_spec 64 rate hr0 hfuel
  have hr2 : (halveLoop 64 rate).2 ≤ 2 := by
    rcases e4 with hnil | hlt1
    · rw [e5 hnil]
      exact h2
    · linarith
  have hEq := buildAtempoFilters_eq_of rate hr2
  have hplen := prod_of_halves_len e1
  have hk : (halveLoop 64 rate).1.length ≤ 3 := by
    rcases e4 with hnil | hlt1
    · rw [hnil]
      simp
    · by_contra hgt
      push_neg at hgt
      have h4 : ((1 : ℚ) / 2) ^ (halveLoop 64 rate).1.length ≤ (1 / 2) ^ 4 :=
        pow_le_pow_of_le_one (by norm_num) (by norm_num) hgt
      have hpow : (0 : ℚ) < ((1 : ℚ) / 2) ^ (halveLoop 64 rate).1.length := by
        positivity
      have hmul : ((1 : ℚ) / 2) ^ (halveLoop 64 rate).1.length * (halveLoop 64 rate).2 <
          ((1 : ℚ) / 2) ^ (halveLoop 64 rate).1.length * 1 :=
        mul_lt_mul_of_pos_left hlt1 hpow
      have he := e2
      rw [hplen] at he
      have h6 : ((1 : ℚ) / 2) ^ 4 = 1 / 16 := by norm_num
      nlinarith [he, hmul, h4]
  rw [hEq]
  by_cases hc : 1 / 10000 < |(halveLoop 64 rate).2 - 1|
  · rw [if_pos hc, List.filter_append, List.length_append]
    rcases Nat.lt_or_ge (halveLoop 64 rate).1.length 3 with hk2 | hk3
    · have ha := List.length_filter_le isBoundaryOp (halveLoop 64 rate).1
      have hb := List.length_filter_le isBoundaryOp [round3 (halveLoop 64 rate).2]
      simp only [List.length_singleton] at hb
      omega
    · have hk4 : (halveLoop 64 rate).1.length = 3 := le_antisymm hk hk3
      have hnonnil : (halveLoop 64 rate).1 ≠ [] := by
        intro hh
        rw [hh] at hk4
        simp at hk4
      have hup : (halveLoop 64 rate).2 < 1 := by
        rcases e4 with hnil | hlt1
        · exact absurd hnil hnonnil
        · exact hlt1
      have hlow : (4 : ℚ) / 5 ≤ (halveLoop 64 rate).2 := by
        have he := e2
        rw [hplen, hk4] at he
        norm_num at he
        linarith
      have hb0 : isBoundaryOp (round3 (halveLoop 64 rate).2) = false := by
        have hge : (4 : ℚ) / 5 ≤ round3 (halveLoop 64 rate).2 := by
          have hm := round3_mono hlow
          rw [round3_fourfifths] at hm
          exact hm
        have hle : round3 (halveLoop 64 rate).2 ≤ 1 := by
          have hm := round3_mono (le_of_lt hup)
          rw [round3_one] at hm
          exact hm
        unfold isBoundaryOp
        rw [decide_eq_false_iff_not]
        push_neg
        constructor
        · intro hh
          rw [hh] at hge
          norm_num at hge
        · intro hh
          rw [hh] at hle
          norm_num at hle
      have ha := List.length_filter_le isBoundaryOp (halveLoop 64 rate).1
      have hb : (List.filter isBoundaryOp [round3 (halveLoop 64 rate).2]).length = 0 := by
        simp [List.filter, hb0]
      omega
  · rw [if_neg hc]
    have ha := List.length_filter_le isBoundaryOp (halveLoop 64 rate).1
    omega

/-- C9 amended witness: the bound instantiated at rate 0.1, where exactly
three boundary operations occur. -/
theorem tempo_boundary_count_witness :
    ((1 : ℚ) / 10 ≤ 1 / 10 ∧ (1 : ℚ) / 10 ≤ 2) ∧
    ((buildAtempoFilters (1 / 10)).filter isBoundaryOp).length ≤ 3 :=
  ⟨⟨le_refl _, by norm_num⟩,
    tempo_boundary_count (1 / 10) (le_refl _) (by norm_num)⟩

/-! ## Claim C2 -/

/-- C2 counterexample: the claimed 0.12 threshold is wrong; at drift 0.13
(videoTime 5, audioTime 5.13, offset 0) the claim demands a seek, but the
tick issues a rate adjustment because the code's threshold is 0.15. -/
theorem tick_threshold_counterexample :
    ¬ (∀ (v a o pr : ℚ) (dur : Option ℚ),
        tick v a o pr dur = TickAction.seek (clampInf (v - o) 0 dur) ↔
          12 / 100 < |a - (v - o)|) := by
  intro h
  have h1 := (h 5 (513 / 100) 0 1 (some 100)).mpr
    (by norm_num [abs_eq_max_neg, max_def])
  have h2 : tick 5 (513 / 100) 0 1 (some 100) =
      TickAction.adjustRate
        (clamp (1 - (513 / 100 - (5 - 0)) * (25 / 100)) (95 / 100) (105 / 100) * 1) := by
    simp only [tick]
    rw [if_neg (by norm_num [abs_eq_max_neg, max_def])]
  rw [h2] at h1
  exact absurd h1 (by simp)

/-- C2 amended: a corrective seek of the audio timeline to
clamp(videoTime - offsetSec, 0, audioDuration) is issued iff the drift
|audioTime - (videoTime - offsetSec)| exceeds 0.15 seconds. -/
theorem tick_seek_iff (v a o pr : ℚ) (dur : Option ℚ) :
    tick v a o pr dur = TickAction.seek (clampInf (v - o) 0 dur) ↔
      15 / 100 < |a - (v - o)| := by
  by_cases h : 15 / 100 < |a - (v - o)|
  · simp only [tick, if_pos h]
    exact iff_of_true trivial h
  · simp only [tick, if_neg h]
    exact iff_of_false (by simp) h

/-- C2 amended witness: at drift 0.3 the tick issues the clamped seek. -/
theorem tick_seek_iff_witness :
    tick 5 (53 / 10) 0 1 (some 10) = TickAction.seek (clampInf (5 - 0) 0 (some 10)) :=
  (tick_seek_iff 5 (53 / 10) 0 1 (some 10)).mpr
    (by norm_num [abs_eq_max_neg, max_def])

/-! ## Claim C3 -/

/-- C3 counterexample: on a sub-threshold tick (drift 0.1, nominal rate
1.0) the audio rate is not pinned to the nominal rate: the code applies
the proportional micro-adjustment and sets 0.975. -/
theorem tick_microadjust_counterexample :
    ¬ (∀ (v a o pr : ℚ) (dur : Option ℚ),
        |a - (v - o)| ≤ 12 / 100 → tick v a o pr dur = TickAction.adjustRate pr) := by
  intro h
  have h1 := h 5 (51 / 10) 0 1 (some 100) (by norm_num [abs_eq_max_neg, max_def])
  have h2 : tick 5 (51 / 10) 0 1 (some 100) =
      TickAction.adjustRate
        (clamp (1 - (51 / 10 - (5 - 0)) * (25 / 100)) (95 / 100) (105 / 100) * 1) := by
    simp only [tick]
    rw [if_neg (by norm_num [abs_eq_max_neg, max_def])]
  rw [h2] at h1
  have h3 : clamp (1 - ((51 : ℚ) / 10 - (5 - 0)) * (25 / 100)) (95 / 100) (105 / 100) * 1 =
      39 / 40 := by
    norm_num [clamp, max_def, min_def]
  rw [h3] at h1
  simp only [TickAction.adjustRate.injEq] at h1
  norm_num at h1

/-- C3 amended: on every sub-threshold tick (drift at or below 0.15) the
audio position is left alone (no seek) and the playback rate is set to
clamp(1 - 0.25 * drift, 0.95, 1.05) * playbackRate, a proportional
micro-adjustment that equals the nominal rate only at zero drift. -/
theorem tick_subthreshold (v a o pr : ℚ) (dur : Option ℚ)
    (h : |a - (v - o)| ≤ 15 / 100) :
    tick v a o pr dur =
      TickAction.adjustRate
        (clamp (1 - (a - (v - o)) * (25 / 100)) (95 / 100) (105 / 100) * pr) := by
  simp only [tick]
  rw [if_neg (not_lt.mpr h)]

/-- C3 amended witness: at zero drift the adjusted rate is the nominal
rate. -/
theorem tick_subthreshold_witness :
    |(5 : ℚ) - (5 - 0)| ≤ 15 / 100 ∧
    tick 5 5 0 1 (some 10) =
      TickAction.adjustRate
        (clamp (1 - ((5 : ℚ) - (5 - 0)) * (25 / 100)) (95 / 100) (105 / 100) * 1) :=
  ⟨by norm_num, tick_subthreshold 5 5 0 1 (some 10) (by norm_num)⟩

/-! ## Lemmas about the export run -/

theorem cacheLookup_nil (key : CacheKey) : cacheLookup [] key = none := rfl

theorem cacheLookup_cons (k : CacheKey) (v : ℕ) (rest : List (CacheKey × ℕ))
    (key : CacheKey) :
    cacheLookup ((k, v) :: rest) key = if k = key then some v else cacheLookup rest key := rfl

theorem export_ok_cases {eng : EngineCall → Option ℕ} {writeOk : Bool}
    {cache : List (CacheKey × ℕ)} {file : FileMeta} {pr off : JSNum}
    {ts te : Option JSNum} {b : ℕ} {cache1 : List (CacheKey × ℕ)}
    {ops1 : List EngineOp}
    (h : exportVideoWithOffset eng writeOk cache file pr off ts te = ⟨.ok b, cache1, ops1⟩) :
    ¬ trivialReq pr off ts te ∧
    cacheLookup cache (exportKeyOf file pr off ts te) = none ∧
    cache1 = (exportKeyOf file pr off ts te, b) :: cache := by
  by_cases hT : trivialReq pr off ts te
  · rw [exportVideoWithOffset, if_pos hT] at h
    simp at h
  · rw [exportVideoWithOffset, if_neg hT] at h
    cases hL : cacheLookup cache (exportKeyOf file pr off ts te) with
    | some b2 =>
      rw [hL] at h
      simp at h
    | none =>
      rw [hL] at h
      refine ⟨hT, rfl, ?_⟩
      by_cases hW : writeOk = true
      · rw [if_pos hW] at h
        by_cases hO : offsetOnlyReq pr off ts te
        · rw [if_pos hO] at h
          cases hA : eng (audioOnlyCall (normOffset off)) with
          | some b2 =>
            rw [hA] at h
            simp only [RunResult.mk.injEq, ExportOutcome.ok.injEq] at h
            rw [← h.2.1, ← h.1]
          | none =>
            rw [hA] at h
            cases hB : eng (fullCallOf pr off ts te) with
            | some b2 =>
              rw [hB] at h
              simp only [RunResult.mk.injEq, ExportOutcome.ok.injEq] at h
              rw [← h.2.1, ← h.1]
            | none =>
              rw [hB] at h
              simp at h
        · rw [if_neg hO] at h
          cases hB : eng (fullCallOf pr off ts te) with
          | some b2 =>
            rw [hB] at h
            simp only [RunResult.mk.injEq, ExportOutcome.ok.injEq] at h
            rw [← h.2.1, ← h.1]
          | none =>
            rw [hB] at h
            simp at h
      · rw [if_neg hW] at h
        simp at h

theorem export_fresh {eng : EngineCall → Option ℕ} {writeOk : Bool}
    {cache : List (CacheKey × ℕ)} {file : FileMeta} {pr off : JSNum}
    {ts te : Option JSNum}
    (hT : ¬ trivialReq pr off ts te)
    (hL : cacheLookup cache (exportKeyOf file pr off ts te) = none) :
    (∀ b2, (exportVideoWithOffset eng writeOk cache file pr off ts te).out ≠ .cached b2) ∧
    EngineOp.getEngine ∈ (exportVideoWithOffset eng writeOk cache file pr off ts te).ops := by
  rw [exportVideoWithOffset, if_neg hT]
  simp only [hL]
  by_cases hW : writeOk = true
  · rw [if_pos hW]
    by_cases hO : offsetOnlyReq pr off ts te
    · rw [if_pos hO]
      cases hA : eng (audioOnlyCall (normOffset off)) with
      | some b2 => simp
      | none =>
        cases hB : eng (fullCallOf pr off ts te) with
        | some b2 => simp
        | none => simp
    · rw [if_neg hO]
      cases hB : eng (fullCallOf pr off ts te) with
      | some b2 => simp
      | none => simp
  · rw [if_neg hW]
    simp

theorem export_cache_changed_only_ok (eng : EngineCall → Option ℕ) (writeOk : Bool)
    (cache : List (CacheKey × ℕ)) (file : FileMeta) (pr off : JSNum)
    (ts te : Option JSNum) :
    (∃ b, (exportVideoWithOffset eng writeOk cache file pr off ts te).out = .ok b) ∨
    (exportVideoWithOffset eng writeOk cache file pr off ts te).cache = cache := by
  rw [exportVideoWithOffset]
  by_cases hT : trivialReq pr off ts te
  · rw [if_pos hT]
    right
    rfl
  · rw [if_neg hT]
    cases hL : cacheLookup cache (exportKeyOf file pr off ts te) with
    | some b2 =>
      simp only [hL]
      right
      trivial
    | none =>
      simp only [hL]
      by_cases hW : writeOk = true
      · rw [if_pos hW]
        by_cases hO : offsetOnlyReq pr off ts te
        · rw [if_pos hO]
          cases hA : eng (audioOnlyCall (normOffset off)) with
          | some b2 =>
            simp only [hA]
            exact Or.inl ⟨b2, rfl⟩
          | none =>
            simp only [hA]
            cases hB : eng (fullCallOf pr off ts te) with
            | some b2 =>
              simp only [hB]
              exact Or.inl ⟨b2, rfl⟩
            | none =>
              simp only [hB]
              right
              trivial
        · rw [if_neg hO]
          cases hB : eng (fullCallOf pr off ts te) with
          | some b2 =>
            simp only [hB]
            exact Or.inl ⟨b2, rfl⟩
          | none =>
            simp only [hB]
            right
            trivial
      · rw [if_neg hW]
        right
        trivial

theorem export_params_congr (eng : EngineCall → Option ℕ) (writeOk : Bool)
    (cache : List (CacheKey × ℕ)) (file : FileMeta) {pr pr2 off off2 : JSNum}
    (ts te : Option JSNum) (h1 : clampRate pr = clampRate pr2)
    (h2 : normOffset off = normOffset off2) :
    exportVideoWithOffset eng writeOk cache file pr off ts te =
      exportVideoWithOffset eng writeOk cache file pr2 off2 ts te := by
  have k1 : trivialReq pr off ts te = trivialReq pr2 off2 ts te := by
    simp [trivialReq, h1, h2]
  have k2 : offsetOnlyReq pr off ts te = offsetOnlyReq pr2 off2 ts te := by
    simp [offsetOnlyReq, h1, h2]
  have k3 : exportKeyOf file pr off ts te = exportKeyOf file pr2 off2 ts te := by
    simp [exportKeyOf, h1, h2]
  have k4 : fullCallOf pr off ts te = fullCallOf pr2 off2 ts te := by
    simp [fullCallOf, h1, h2]
  simp only [exportVideoWithOffset, k1, k2, k3, k4, h2]

/-! ## Claim C5 -/

/-- C5: with rate exactly 1.0, offset exactly 0 and no trim requested,
the export returns the source file verbatim, performs no engine
interaction at all, and leaves the cache untouched. -/
theorem export_passthrough (eng : EngineCall → Option ℕ) (writeOk : Bool)
    (cache : List (CacheKey × ℕ)) (file : FileMeta) :
    exportVideoWithOffset eng writeOk cache file (.fin 1) (.fin 0) none none =
      ⟨.passthrough, cache, []⟩ := by
  have hT : trivialReq (JSNum.fin 1) (JSNum.fin 0) none none := by
    refine ⟨?_, ?_, rfl⟩
    · norm_num [clampRate]
    · norm_num [normOffset, isFiniteJS, jsVal]
  rw [exportVideoWithOffset, if_pos hT]

/-! ## Claim C6 -/

/-- C6: the export cache is keyed by (name, size, lastModified, rate,
offset, trimStart, trimEnd); a successful compile stores its result under
that key, an identical second call is served from the cache with the same
blob and no engine interaction, a failed run stores nothing, and a second
call whose key differs is never served from the cache and consults the
engine afresh. -/
theorem exportCache_spec (eng : EngineCall → Option ℕ) (writeOk : Bool)
    (cache : List (CacheKey × ℕ)) (file : FileMeta) (pr off : JSNum)
    (ts te : Option JSNum) :
    (∀ b cache1 ops1,
      exportVideoWithOffset eng writeOk cache file pr off ts te = ⟨.ok b, cache1, ops1⟩ →
      cache1 = (exportKeyOf file pr off ts te, b) :: cache ∧
      exportVideoWithOffset eng writeOk cache1 file pr off ts te = ⟨.cached b, cache1, []⟩) ∧
    (∀ e, (exportVideoWithOffset eng writeOk cache file pr off ts te).out = .failed e →
      (exportVideoWithOffset eng writeOk cache file pr off ts te).cache = cache) ∧
    (∀ (file2 : FileMeta) (pr2 off2 : JSNum) (ts2 te2 : Option JSNum) b cache1 ops1,
      exportVideoWithOffset eng writeOk [] file pr off ts te = ⟨.ok b, cache1, ops1⟩ →
      exportKeyOf file2 pr2 off2 ts2 te2 ≠ exportKeyOf file pr off ts te →
      ¬ trivialReq pr2 off2 ts2 te2 →
      (∀ b2,
        (exportVideoWithOffset eng writeOk cache1 file2 pr2 off2 ts2 te2).out ≠ .cached b2) ∧
      EngineOp.getEngine ∈
        (exportVideoWithOffset eng writeOk cache1 file2 pr2 off2 ts2 te2).ops) := by
  refine ⟨?_, ?_, ?_⟩
  · intro b cache1 ops1 h
    obtain ⟨hT, hL, hC⟩ := export_ok_cases h
    refine ⟨hC, ?_⟩
    have hL2 : cacheLookup cache1 (exportKeyOf file pr off ts te) = some b := by
      rw [hC, cacheLookup_cons, if_pos rfl]
    rw [exportVideoWithOffset, if_neg hT]
    simp only [hL2]
  · intro e h
    rcases export_cache_changed_only_ok eng writeOk cache file pr off ts te with ⟨b, hb⟩ | hc
    · rw [h] at hb
      exact absurd hb (by simp)
    · exact hc
  · intro file2 pr2 off2 ts2 te2 b cache1 ops1 h hkey hT2
    obtain ⟨hT1, hL1, hC1⟩ := export_ok_cases h
    have hL2 : cacheLookup cache1 (exportKeyOf file2 pr2 off2 ts2 te2) = none := by
      rw [hC1, cacheLookup_cons, if_neg (fun hh => hkey hh.symm), cacheLookup_nil]
    exact export_fresh hT2 hL2

/-- C6 witness: a concrete successful run (rate 2, offset 0) followed by
the identical call served from the cache with no engine interaction. -/
theorem exportCache_spec_witness :
    exportVideoWithOffset engOk true
        [(exportKeyOf file0 (.fin 2) (.fin 0) none none, 7)] file0 (.fin 2) (.fin 0)
        none none =
      ⟨.cached 7, [(exportKeyOf file0 (.fin 2) (.fin 0) none none, 7)], []⟩ :=
  ((exportCache_spec engOk true [] file0 (.fin 2) (.fin 0) none none).1 7
    [(exportKeyOf file0 (.fin 2) (.fin 0) none none, 7)]
    [.getEngine, .writeInput, .exec (fullCallOf (.fin 2) (.fin 0) none none), .readOutput]
    (by
      have hT : ¬ trivialReq (JSNum.fin 2) (JSNum.fin 0) none none := by
        intro hh
        have h1 := hh.1
        norm_num [clampRate, abs_eq_max_neg, max_def] at h1
      have hO : ¬ offsetOnlyReq (JSNum.fin 2) (JSNum.fin 0) none none := by
        intro hh
        have h1 := hh.1
        norm_num [clampRate, abs_eq_max_neg, max_def] at h1
      rw [exportVideoWithOffset, if_neg hT]
      simp only [cacheLookup]
      rw [if_pos trivial, if_neg hO]
      simp [engOk])).2

/-! ## Claim C7 -/

/-- C7 counterexample: a trim request with start 5 and end 3 (start at or
above end) is not rejected: the export succeeds, invokes the engine, and
writes the cache. -/
theorem exportTrim_counterexample :
    ((3 : ℚ) ≤ 5) ∧
    (exportVideoWithOffset engOk true [] file0 (.fin 2) (.fin 0)
        (some (.fin 5)) (some (.fin 3))).out = .ok 7 ∧
    (exportVideoWithOffset engOk true [] file0 (.fin 2) (.fin 0)
        (some (.fin 5)) (some (.fin 3))).ops ≠ [] ∧
    (exportVideoWithOffset engOk true [] file0 (.fin 2) (.fin 0)
        (some (.fin 5)) (some (.fin 3))).cache ≠ [] := by
  have hT : ¬ trivialReq (JSNum.fin 2) (JSNum.fin 0) (some (.fin 5)) (some (.fin 3)) := by
    intro hh
    have h1 := hh.1
    norm_num [clampRate, abs_eq_max_neg, max_def] at h1
  have hO : ¬ offsetOnlyReq (JSNum.fin 2) (JSNum.fin 0) (some (.fin 5)) (some (.fin 3)) := by
    intro hh
    have h1 := hh.1
    norm_num [clampRate, abs_eq_max_neg, max_def] at h1
  have heval : exportVideoWithOffset engOk true [] file0 (.fin 2) (.fin 0)
      (some (.fin 5)) (some (.fin 3)) =
      ⟨.ok 7,
        [(exportKeyOf file0 (.fin 2) (.fin 0) (some (.fin 5)) (some (.fin 3)), 7)],
        [.getEngine, .writeInput,
          .exec (fullCallOf (.fin 2) (.fin 0) (some (.fin 5)) (some (.fin 3))),
          .readOutput]⟩ := by
    rw [exportVideoWithOffset, if_neg hT]
    simp only [cacheLookup]
    rw [if_pos trivial, if_neg hO]
    simp [engOk]
  rw [heval]
  exact ⟨by norm_num, rfl, by simp, by simp⟩

/-- C7 amended: a trim request with start at or above end is silently
ignored: the export behaves exactly as if no trim had been requested (no
rejection, no error from the trim itself). -/
theorem exportTrim_ignored (eng : EngineCall → Option ℕ) (writeOk : Bool)
    (cache : List (CacheKey × ℕ)) (file : FileMeta) (pr off : JSNum) (s e : ℚ)
    (h : e ≤ s) :
    exportVideoWithOffset eng writeOk cache file pr off (some (.fin s)) (some (.fin e)) =
      exportVideoWithOffset eng writeOk cache file pr off none none := by
  have h1 : hasTrimOf (some (.fin s)) (some (.fin e)) = false := by
    simp [hasTrimOf, isFiniteOpt, optVal, not_lt.mpr h]
  have h2 : hasTrimOf (none : Option JSNum) none = false := rfl
  have k1 : exportKeyOf file pr off (some (.fin s)) (some (.fin e)) =
      exportKeyOf file pr off none none := by
    simp [exportKeyOf, trimStartOf, trimEndOf, h1, h2]
  have k2 : fullCallOf pr off (some (.fin s)) (some (.fin e)) =
      fullCallOf pr off none none := by
    simp [fullCallOf, trimStartOf, trimEndOf, h1, h2]
  have k3 : trivialReq pr off (some (.fin s)) (some (.fin e)) =
      trivialReq pr off none none := by
    simp [trivialReq, h1, h2]
  have k4 : offsetOnlyReq pr off (some (.fin s)) (some (.fin e)) =
      offsetOnlyReq pr off none none := by
    simp [offsetOnlyReq, h1, h2]
  simp only [exportVideoWithOffset, k1, k2, k3, k4]

/-- C7 amended witness: the invalid trim 5..3 behaves as no trim on a
concrete request. -/
theorem exportTrim_ignored_witness :
    ((3 : ℚ) ≤ 5) ∧
    exportVideoWithOffset engOk true [] file0 (.fin 2) (.fin 0)
        (some (.fin 5)) (some (.fin 3)) =
      exportVideoWithOffset engOk true [] file0 (.fin 2) (.fin 0) none none :=
  ⟨by norm_num,
    exportTrim_ignored engOk true [] file0 (.fin 2) (.fin 0) 5 3 (by norm_num)⟩

/-! ## Claim C4 -/

/-- C4: evaluation of the compiler at rate 1.0, offset 0.2, no trim, with
a failing engine: the first exec attempt copies only the video stream and
re-encodes the audio (aac); there is no whole-stream copy attempt, and
the single fallback is the full re-encode. -/
theorem export_first_attempt_eval :
    execCalls (exportVideoWithOffset engFail true [] file0 (.fin 1) (.fin (1 / 5))
        none none).ops =
      [audioOnlyCall (1 / 5), fullCall 1 (1 / 5) false 0 0] ∧
    (audioOnlyCall (1 / 5)).videoCodec = Codec.copy ∧
    (audioOnlyCall (1 / 5)).audioCodec = Codec.aac ∧
    Codec.aac ≠ Codec.copy := by
  have hT : ¬ trivialReq (JSNum.fin 1) (JSNum.fin (1 / 5)) none none := by
    intro hh
    have h1 := hh.2.1
    norm_num [normOffset, isFiniteJS, jsVal, abs_eq_max_neg, max_def] at h1
  have hO : offsetOnlyReq (JSNum.fin 1) (JSNum.fin (1 / 5)) none none := by
    refine ⟨?_, ?_, rfl⟩
    · norm_num [clampRate]
    · norm_num [normOffset, isFiniteJS, jsVal, abs_eq_max_neg, max_def]
  have heval : exportVideoWithOffset engFail true [] file0 (.fin 1) (.fin (1 / 5))
      none none =
      ⟨.failed .execFailed, [],
        [.getEngine, .writeInput, .exec (audioOnlyCall (normOffset (.fin (1 / 5)))),
          .exec (fullCallOf (.fin 1) (.fin (1 / 5)) none none)]⟩ := by
    rw [exportVideoWithOffset, if_neg hT]
    simp only [cacheLookup]
    rw [if_pos trivial, if_pos hO]
    simp [engFail]
  rw [heval]
  have hn : normOffset (JSNum.fin (1 / 5)) = 1 / 5 := by
    norm_num [normOffset, isFiniteJS, jsVal]
  have hf : fullCallOf (JSNum.fin 1) (JSNum.fin (1 / 5)) none none =
      fullCall 1 (1 / 5) false 0 0 := by
    rw [fullCallOf, hn]
    norm_num [clampRate, hasTrimOf, trimStartOf, trimEndOf, isFiniteOpt, optVal]
  refine ⟨?_, rfl, rfl, by simp⟩
  rw [hn, hf]
  simp [execCalls]

/-! ## Claim C10 -/

/-- C10: a NaN, infinite or non-positive playbackRate makes the export
behave exactly as rate 1.0, a non-finite offsetSec behaves as offset 0,
and the effective rate entering every filter chain is always positive. -/
theorem clampRate_safety (eng : EngineCall → Option ℕ) (writeOk : Bool)
    (cache : List (CacheKey × ℕ)) (file : FileMeta) (pr off : JSNum)
    (ts te : Option JSNum) :
    (badRate pr →
      exportVideoWithOffset eng writeOk cache file pr off ts te =
        exportVideoWithOffset eng writeOk cache file (.fin 1) off ts te) ∧
    (isFiniteJS off = false →
      exportVideoWithOffset eng writeOk cache file pr off ts te =
        exportVideoWithOffset eng writeOk cache file pr (.fin 0) ts te) ∧
    0 < clampRate pr := by
  refine ⟨?_, ?_, ?_⟩
  · intro hbad
    apply export_params_congr
    · have hone : clampRate (JSNum.fin 1) = 1 := by
        simp only [clampRate]
        norm_num
      rw [hone]
      cases pr with
      | fin q =>
        rcases hbad with hb | hb
        · simp [isFiniteJS] at hb
        · simp only [jsVal] at hb
          simp only [clampRate]
          rw [if_pos hb]
      | nan => rfl
      | posInf => rfl
      | negInf => rfl
    · rfl
  · intro hni
    apply export_params_congr
    · rfl
    · simp only [normOffset, hni]
      norm_num [isFiniteJS, jsVal]
  · cases pr with
    | fin q =>
      simp only [clampRate]
      by_cases hq : q ≤ 0
      · rw [if_pos hq]
        norm_num
      · rw [if_neg hq]
        linarith [not_le.mp hq]
    | nan =>
      simp only [clampRate]
      norm_num
    | posInf =>
      simp only [clampRate]
      norm_num
    | negInf =>
      simp only [clampRate]
      norm_num

/-- C10 witness: a NaN playbackRate with offset 0.2 behaves exactly as
rate 1.0. -/
theorem clampRate_safety_witness :
    exportVideoWithOffset engOk true [] file0 .nan (.fin (1 / 5)) none none =
      exportVideoWithOffset engOk true [] file0 (.fin 1) (.fin (1 / 5)) none none :=
  (clampRate_safety engOk true [] file0 .nan (.fin (1 / 5)) none none).1 (Or.inl rfl)

/-! ## Claim C8 -/

/-- C8 counterexample: the raw engine events 0.5, 0.25, 1.5 are presented
unmodified, so the presented values both decrease (0.5 then 0.25) and
exceed 1 (1.5): the claimed clamping and monotonic presentation do not
hold. -/
theorem progress_counterexample :
    ¬ (∀ events : List ℚ,
        (∀ p ∈ exportProgressTrace events, 0 ≤ p ∧ p ≤ 1) ∧
        List.Chain' (· ≤ ·) (exportProgressTrace events)) := by
  intro h
  have h1 := h [1 / 2, 1 / 4, 3 / 2]
  have h2 : exportProgressTrace [1 / 2, 1 / 4, 3 / 2] = [1 / 2, 1 / 4, 3 / 2] := by
    rw [exportProgressTrace, show onEngineProgress = fun p : ℚ => p from rfl, List.map_id']
  rw [h2] at h1
  rcases h1 with ⟨hmem, hchain⟩
  rcases List.chain'_cons.mp hchain with ⟨hle, _⟩
  norm_num at hle

/-- C8 amended: the export controller presents the raw engine progress
values unmodified: no clamping to [0,1], no monotonicity enforcement and
no early-spurious suppression are applied. -/
theorem progress_passthrough (events : List ℚ) :
    exportProgressTrace events = events := by
  rw [exportProgressTrace, show onEngineProgress = fun p : ℚ => p from rfl, List.map_id']

end AvSync
